import Mathlib

/-!
Verification development for the Virtual-Try-on background-removal backend
(backend/main.py).  The Python functions are shallowly embedded: pixels
are integer triples/quadruples, PIL images are lists of pixel rows, and
integer/rational arithmetic stands in for Python arithmetic.  The two
places where binary64 floating-point rounding is semantically decisive —
the `downscale_if_needed` size computation, and the mean accumulation of
`estimate_background_color` — are modelled by an exact integer
(mantissa, exponent) model of IEEE-754 round-to-nearest-ties-to-even
double rounding (`fl53_div`, `fl53_scaled`, `fladd`, `fldivNat`).
External collaborators (the optional rembg segmenter, the Gaussian-blur
convolution inside PIL, remote fetching, and base64 decoding) enter as
oracle parameters, so theorems quantify over their behavior, including
failure.
-/

set_option maxRecDepth 4000

namespace Tryon

/-- An RGB pixel: three 8-bit channels, carried as integers. -/
structure RGB where
  r : ℤ
  g : ℤ
  b : ℤ
deriving DecidableEq

/-- An RGBA pixel: RGB plus an alpha channel. -/
structure RGBA where
  r : ℤ
  g : ℤ
  b : ℤ
  a : ℤ
deriving DecidableEq

/-- A 3-channel raster: a list of pixel rows (PIL "RGB" image). -/
abbrev RGBImage : Type := List (List RGB)

/-- A 4-channel raster: a list of pixel rows (PIL "RGBA" image). -/
abbrev RGBAImage : Type := List (List RGBA)

/-- A single-channel raster (PIL "L" image), used for alpha masks. -/
abbrev Mask : Type := List (List ℕ)

/-- Image width, as PIL reports it (length of a pixel row). -/
def width {α : Type} (im : List (List α)) : ℕ := (im.headD []).length

/-- Image height: the number of pixel rows. -/
def height {α : Type} (im : List (List α)) : ℕ := im.length

/-- A raster is rectangular: every row has length `width im`.  PIL images
always satisfy this. -/
def Rect {α : Type} (im : List (List α)) : Prop :=
  ∀ row ∈ im, row.length = width im

/-- Dropping the alpha channel: `im.convert("RGB")`. -/
def toRGB (im : RGBAImage) : RGBImage :=
  im.map fun row => row.map fun p => RGB.mk p.r p.g p.b

/-- Source `color_distance_sq(c1, c2)` (backend/main.py:69-73): squared
Euclidean distance between two RGB colors. -/
def color_distance_sq (c1 c2 : RGB) : ℤ :=
  (c1.r - c2.r) * (c1.r - c2.r) +
  (c1.g - c2.g) * (c1.g - c2.g) +
  (c1.b - c2.b) * (c1.b - c2.b)

/-- PIL `im.crop((l, u, r, b))` on a list-of-rows raster: rows `u..b`,
columns `l..r`. -/
def crop {α : Type} (im : List (List α)) (l u r b : ℕ) : List (List α) :=
  ((im.drop u).take (b - u)).map fun row => (row.drop l).take (r - l)

/-- PIL `ImageStat.Stat(c).count[0]`: the number of pixels of a raster. -/
def statCount {α : Type} (im : List (List α)) : ℕ := (im.map List.length).sum

/-- Sum of one channel (selected by `f`) over all pixels of a raster. -/
def sumChan (f : RGB → ℤ) (im : RGBImage) : ℤ :=
  (im.map fun row => (row.map f).sum).sum

/-- Python `int(q)`: truncation toward zero. -/
def py_int (q : ℚ) : ℤ := if 0 ≤ q then ⌊q⌋ else ⌈q⌉

/-- Structural binary logarithm with explicit fuel; `log2Fuel f n` is
⌊log2 n⌋ for every `2 ≤ n < 2 ^ f` (and 0 for `n ≤ 1`). -/
def log2Fuel : ℕ → ℕ → ℕ
  | 0, _ => 0
  | f + 1, n => if 2 ≤ n then log2Fuel f (n / 2) + 1 else 0

/-- Binary logarithm, rounded down, for numbers below `2 ^ 128` (ample for
the pixel and sum arithmetic modelled here). -/
def natLog2 (n : ℕ) : ℕ := log2Fuel 128 n

/-- Smallest `k` with `n ≤ 2 ^ k`, for `n` below `2 ^ 128`. -/
def natClog2 (n : ℕ) : ℕ := if n ≤ 1 then 0 else natLog2 (n - 1) + 1

/-- Round the fraction `a / b` (with `b > 0`) to the nearest natural
number, ties to even (IEEE-754 default rounding). -/
def roundNearEven (a b : ℕ) : ℕ :=
  if b < 2 * (a % b) then a / b + 1
  else if 2 * (a % b) < b then a / b
  else if a / b % 2 = 0 then a / b else a / b + 1

/-- Floor of the binary logarithm of the positive quotient `n / d`: the
exponent of its binary64 representation. -/
def fl53exp (n d : ℕ) : ℤ :=
  if d ≤ n then (natLog2 (n / d) : ℤ) else -(natClog2 ((d + n - 1) / n) : ℤ)

/-- Binary64 rounding of the exact quotient `n / d` (`d > 0`), as a pair
(mantissa, exponent) whose value is `mantissa * 2 ^ exponent`: the
53-significant-bit round-to-nearest-ties-to-even representation that
Python computes for a float division with exactly representable
operands.  Overflow and subnormals do not arise for the magnitudes
handled here. -/
def fl53_div (n d : ℕ) : ℕ × ℤ :=
  if n = 0 then (0, 0)
  else if fl53exp n d ≤ 52 then
    (roundNearEven (n * 2 ^ (52 - fl53exp n d).toNat) d, fl53exp n d - 52)
  else (roundNearEven n (d * 2 ^ (fl53exp n d - 52).toNat), fl53exp n d - 52)

/-- Binary64 rounding of the exact value `m * 2 ^ e` (the rounding Python
performs after an exact integer computation on mantissas, e.g. for the
float product `w * scale` with `w` below `2 ^ 53`, or for a float
addition after aligning the two addends). -/
def fl53_scaled (m : ℕ) (e : ℤ) : ℕ × ℤ :=
  if m < 2 ^ 53 then (m, e)
  else (roundNearEven m (2 ^ (natLog2 m - 52)), e + (natLog2 m - 52 : ℕ))

/-- Python `int(x)` for a nonnegative float `x = m * 2 ^ e`: truncation,
which for nonnegative values is the floor. -/
def floorScaled (m : ℕ) (e : ℤ) : ℕ :=
  if 0 ≤ e then m * 2 ^ e.toNat else m / 2 ^ (-e).toNat

/-- A nonnegative binary64 float, as (mantissa, exponent) with value
`mantissa * 2 ^ exponent`. -/
abbrev F64 : Type := ℕ × ℤ

/-- The exact rational value of a float. -/
def F64val (f : F64) : ℚ := (f.1 : ℚ) * 2 ^ f.2

/-- Binary64 addition of two nonnegative floats: align the mantissas to
the smaller exponent (an exact integer computation) and round the exact
sum once, matching IEEE-754 `+` on nonnegative operands. -/
def fladd (a b : F64) : F64 :=
  fl53_scaled (a.1 * 2 ^ (a.2 - min a.2 b.2).toNat + b.1 * 2 ^ (b.2 - min a.2 b.2).toNat)
    (min a.2 b.2)

/-- Binary64 division of a nonnegative float by a positive int (Python
`s / count`): one rounding of the exact quotient. -/
def fldivNat (a : F64) (k : ℕ) : F64 :=
  if 0 ≤ a.2 then fl53_div (a.1 * 2 ^ a.2.toNat) k
  else fl53_div a.1 (k * 2 ^ (-a.2).toNat)

/-- Python `int()` of a nonnegative float, as an integer. -/
def floorF64 (f : F64) : ℤ := (floorScaled f.1 f.2 : ℕ)

/-- The four corner sub-rectangles sampled by `estimate_background_color`
(backend/main.py:78-83); Python `max(0, w - sample_size)` is ℕ
subtraction. -/
def cornersOf (im : RGBImage) (sample_size : ℕ) : List RGBImage :=
  [ crop im 0 0 (min sample_size (width im)) (min sample_size (height im)),
    crop im (width im - sample_size) 0 (width im) (min sample_size (height im)),
    crop im 0 (height im - sample_size) (min sample_size (width im)) (height im),
    crop im (width im - sample_size) (height im - sample_size) (width im) (height im) ]

/-- One iteration of the corner loop of `estimate_background_color`
(backend/main.py:84-92), in binary64 floating point as Python runs it: a
corner with at least one pixel contributes its per-channel mean
`stat.mean[ch]` — the float quotient of the exact integer channel sum by
the pixel count (PIL's per-band sum of an 8-bit raster is integer-exact
in a double) — via one float addition `sums[ch] += stat.mean[ch]`, and
bumps the valid-corner count; an empty corner is skipped.  Channel sums
pass through `Int.toNat`, total on the 8-bit rasters this models. -/
def bgStep (acc : F64 × F64 × F64 × ℕ) (c : RGBImage) : F64 × F64 × F64 × ℕ :=
  if 0 < statCount c then
    (fladd acc.1 (fl53_div (sumChan RGB.r c).toNat (statCount c)),
     fladd acc.2.1 (fl53_div (sumChan RGB.g c).toNat (statCount c)),
     fladd acc.2.2.1 (fl53_div (sumChan RGB.b c).toNat (statCount c)),
     acc.2.2.2 + 1)
  else acc

/-- Source `estimate_background_color(im, sample_size)`
(backend/main.py:76-95): average the per-corner mean colors over the
corners that contain at least one pixel; white if no corner does.  The
means and their accumulation are binary64 floats exactly as in Python
(`sums` starts at int 0, whose first float addition is exact), and
`int(sums[ch] / count)` is one more float division followed by
truncation. -/
def estimate_background_color (im : RGBImage) (sample_size : ℕ) : RGB :=
  let res := (cornersOf im sample_size).foldl bgStep ((0, 0), (0, 0), (0, 0), 0)
  if res.2.2.2 = 0 then RGB.mk 255 255 255
  else RGB.mk (floorF64 (fldivNat res.1 res.2.2.2))
              (floorF64 (fldivNat res.2.1 res.2.2.2))
              (floorF64 (fldivNat res.2.2.1 res.2.2.2))

/-- Spec-side description (for the refinement statement of the estimator):
the per-corner mean colors of the corners holding at least one pixel. -/
def cornerMeansOf (l : List RGBImage) : List (ℚ × ℚ × ℚ) :=
  l.filterMap fun c =>
    if 0 < statCount c then
      some ((sumChan RGB.r c : ℚ) / (statCount c : ℚ),
            (sumChan RGB.g c : ℚ) / (statCount c : ℚ),
            (sumChan RGB.b c : ℚ) / (statCount c : ℚ))
    else none

/-- Spec-side description of the Background Color Estimator, following the
spec's words: compute the arithmetic mean color of each corner with at
least one pixel, average those per-corner means over the valid corners
(as integers), and return white when zero corners are valid. -/
def specEstimate (im : RGBImage) (sample_size : ℕ) : RGB :=
  let ms := cornerMeansOf (cornersOf im sample_size)
  if ms.isEmpty then RGB.mk 255 255 255
  else RGB.mk (py_int ((ms.map fun m => m.1).sum / (ms.length : ℚ)))
              (py_int ((ms.map fun m => m.2.1).sum / (ms.length : ℚ)))
              (py_int ((ms.map fun m => m.2.2).sum / (ms.length : ℚ)))

/-- Spec-side description (float level): the per-corner binary64 mean
colors of the corners holding at least one pixel. -/
def cornerMeansF (l : List RGBImage) : List (F64 × F64 × F64) :=
  l.filterMap fun c =>
    if 0 < statCount c then
      some (fl53_div (sumChan RGB.r c).toNat (statCount c),
            fl53_div (sumChan RGB.g c).toNat (statCount c),
            fl53_div (sumChan RGB.b c).toNat (statCount c))
    else none

/-- Spec-side description of the Background Color Estimator at the float
level: the binary64 per-corner means of the valid corners, accumulated
left to right with binary64 additions, divided by the number of valid
corners with one binary64 division, and truncated; white when zero
corners are valid. -/
def specEstimateF (im : RGBImage) (sample_size : ℕ) : RGB :=
  let ms := cornerMeansF (cornersOf im sample_size)
  if ms.isEmpty then RGB.mk 255 255 255
  else RGB.mk (floorF64 (fldivNat (ms.foldl (fun a m => fladd a m.1) (0, 0)) ms.length))
              (floorF64 (fldivNat (ms.foldl (fun a m => fladd a m.2.1) (0, 0)) ms.length))
              (floorF64 (fldivNat (ms.foldl (fun a m => fladd a m.2.2) (0, 0)) ms.length))

/-- A 6-by-6 gray raster whose four 3-by-3 corner sub-rectangles (sample
size 3) have channel sums 1278, 374, 1603 and 525.  The exact average of
the corner means is 3780/36 = 105, but the binary64 mean accumulation
lands just below 105 and truncates to 104. -/
def cexEstimator : RGBImage :=
  [ [RGB.mk 142 142 142, RGB.mk 142 142 142, RGB.mk 142 142 142,
     RGB.mk 46 46 46, RGB.mk 41 41 41, RGB.mk 41 41 41],
    [RGB.mk 142 142 142, RGB.mk 142 142 142, RGB.mk 142 142 142,
     RGB.mk 41 41 41, RGB.mk 41 41 41, RGB.mk 41 41 41],
    [RGB.mk 142 142 142, RGB.mk 142 142 142, RGB.mk 142 142 142,
     RGB.mk 41 41 41, RGB.mk 41 41 41, RGB.mk 41 41 41],
    [RGB.mk 179 179 179, RGB.mk 178 178 178, RGB.mk 178 178 178,
     RGB.mk 61 61 61, RGB.mk 58 58 58, RGB.mk 58 58 58],
    [RGB.mk 178 178 178, RGB.mk 178 178 178, RGB.mk 178 178 178,
     RGB.mk 58 58 58, RGB.mk 58 58 58, RGB.mk 58 58 58],
    [RGB.mk 178 178 178, RGB.mk 178 178 178, RGB.mk 178 178 178,
     RGB.mk 58 58 58, RGB.mk 58 58 58, RGB.mk 58 58 58] ]

/-- The unrefined binary mask built by the pixel loop of `pillow_bg_remove`
(backend/main.py:103-114): 255 where the squared color distance to the
background sample strictly exceeds `threshold * threshold`, else 0. -/
def buildMask (rgb : RGBImage) (bg : RGB) (threshold : ℕ) : Mask :=
  rgb.map fun row => row.map fun c =>
    if ((threshold * threshold : ℕ) : ℤ) < color_distance_sq c bg then 255 else 0

/-- The foreground count `fg_count` accumulated by the same pixel loop. -/
def fgCount (rgb : RGBImage) (bg : RGB) (threshold : ℕ) : ℕ :=
  (rgb.map fun row =>
    row.countP fun c =>
      decide (((threshold * threshold : ℕ) : ℤ) < color_distance_sq c bg)).sum

/-- The foreground fraction `fg_count / (w * h)` (backend/main.py:115). -/
def fgFraction (rgb : RGBImage) (bg : RGB) (w h threshold : ℕ) : ℚ :=
  (fgCount rgb bg threshold : ℚ) / ((w : ℚ) * (h : ℚ))

/-- Mask lookup with signed coordinates; out-of-range reads yield 0,
modelling the zero border that PIL's rank filters pad with (`expand`
before `rankfilter`). -/
def maskGetZ (m : Mask) (y x : ℤ) : ℕ :=
  if 0 ≤ y ∧ 0 ≤ x then (m.getD y.toNat []).getD x.toNat 0 else 0

/-- PIL `ImageFilter.MaxFilter(3)`: each pixel becomes the maximum of its
zero-padded 3-by-3 neighborhood (morphological dilation). -/
def maxFilter3 (m : Mask) : Mask :=
  (List.range (height m)).map fun y =>
    (List.range ((m.getD y []).length)).map fun x =>
      let g := fun (dy dx : ℤ) => maskGetZ m ((y : ℤ) + dy) ((x : ℤ) + dx)
      max (max (max (max (g (-1) (-1)) (g (-1) 0)) (max (g (-1) 1) (g 0 (-1))))
               (max (max (g 0 0) (g 0 1)) (max (g 1 (-1)) (g 1 0))))
          (g 1 1)

/-- PIL `ImageFilter.MinFilter(3)`: each pixel becomes the minimum of its
zero-padded 3-by-3 neighborhood (morphological erosion). -/
def minFilter3 (m : Mask) : Mask :=
  (List.range (height m)).map fun y =>
    (List.range ((m.getD y []).length)).map fun x =>
      let g := fun (dy dx : ℤ) => maskGetZ m ((y : ℤ) + dy) ((x : ℤ) + dx)
      min (min (min (min (g (-1) (-1)) (g (-1) 0)) (min (g (-1) 1) (g 0 (-1))))
               (min (min (g 0 0) (g 0 1)) (min (g 1 (-1)) (g 1 0))))
          (g 1 1)

/-- The sequence of filter applications attempted inside the `try` block of
`pillow_bg_remove` (backend/main.py:118-122): `smooth_radius` dilations,
then `smooth_radius` erosions. -/
def filterChain (smooth_radius : ℕ) : List (Mask → Mask) :=
  List.replicate smooth_radius maxFilter3 ++ List.replicate smooth_radius minFilter3

/-- Runs a list of filter applications on a mask the way the Python `try`
block does: the oracle `ok i` tells whether the `i`-th `mask.filter(...)`
call succeeds; on the first failing call the exception aborts the block
and `mask` keeps the value it had at that point (`except Exception: pass`,
backend/main.py:123-124). -/
def runFilters (ok : ℕ → Bool) : ℕ → List (Mask → Mask) → Mask → Mask
  | _, [], m => m
  | i, f :: rest, m => if ok i then runFilters ok (i + 1) rest (f m) else m

/-- The dilate/erode stage of the Refiner, including its failure semantics
(backend/main.py:118-124). -/
def morphStage (ok : ℕ → Bool) (smooth_radius : ℕ) (m : Mask) : Mask :=
  runFilters ok 0 (filterChain smooth_radius) m

/-- PIL `rgba.putalpha(mask)` (backend/main.py:127): replace the alpha
channel with the mask, keeping the color channels. -/
def putalpha (im : RGBAImage) (mask : Mask) : RGBAImage :=
  List.zipWith (fun row mrow =>
    List.zipWith (fun p (a : ℕ) => RGBA.mk p.r p.g p.b (a : ℤ)) row mrow) im mask

/-- Source `pillow_bg_remove(im, threshold, smooth_radius, min_fg_fraction)`
(backend/main.py:98-128).  The Gaussian blur of radius 1 applied after
the morphological stage (line 125) is floating-point convolution inside
PIL; it is abstracted as the parameter `blur`, and `ok` is the oracle for
the rank-filter calls of the `try` block.  The background color is
recomputed by each recursive call exactly as in the source (line 100);
the retry guard and the lowered threshold `max(20, threshold - 15)` are
at lines 116-117. -/
def pillow_bg_remove (blur : Mask → Mask) (ok : ℕ → Bool) (im : RGBAImage)
    (threshold smooth_radius : ℕ) (min_fg_fraction : ℚ) : RGBAImage :=
  if h : fgFraction (toRGB im) (estimate_background_color (toRGB im) 10)
           (width im) (height im) threshold < min_fg_fraction ∧ 20 < threshold then
    pillow_bg_remove blur ok im (max 20 (threshold - 15)) smooth_radius min_fg_fraction
  else
    putalpha im (blur (morphStage ok smooth_radius
      (buildMask (toRGB im) (estimate_background_color (toRGB im) 10) threshold)))
termination_by threshold
decreasing_by
  obtain ⟨-, h2⟩ := h
  omega

/-- Observer of the retry recursion of `pillow_bg_remove`: the list of
(threshold, background color) pairs of the successive mask-building
attempts, following exactly the retry guard of backend/main.py:116-117. -/
def attempts (im : RGBAImage) (threshold : ℕ) (min_fg_fraction : ℚ) : List (ℕ × RGB) :=
  if h : fgFraction (toRGB im) (estimate_background_color (toRGB im) 10)
           (width im) (height im) threshold < min_fg_fraction ∧ 20 < threshold then
    (threshold, estimate_background_color (toRGB im) 10) ::
      attempts im (max 20 (threshold - 15)) min_fg_fraction
  else
    [(threshold, estimate_background_color (toRGB im) 10)]
termination_by threshold
decreasing_by
  obtain ⟨-, h2⟩ := h
  omega

/-- Source `remove_background(im, do_rembg)` (backend/main.py:131-142).
The optional learned segmenter (save to PNG, `rembg_remove`, decode as
RGBA) is an external collaborator, modelled as the oracle `seg`; any
exception it raises is an `Except.error`, which the source catches and
answers with the heuristic pipeline. -/
def remove_background (blur : Mask → Mask) (ok : ℕ → Bool)
    (seg : RGBAImage → Except String RGBAImage)
    (rembg_available do_rembg : Bool) (im : RGBAImage) : RGBAImage :=
  if rembg_available && do_rembg then
    match seg im with
    | Except.ok out => out
    | Except.error _ => pillow_bg_remove blur ok im 45 3 (1 / 1000)
  else
    pillow_bg_remove blur ok im 45 3 (1 / 1000)

/-- Upper bound on upload size, `MAX_UPLOAD_BYTES` (backend/main.py:35). -/
def MAX_UPLOAD_BYTES : ℕ := 8 * 1024 * 1024

/-- Maximum image dimension, `MAX_DIMENSION` (backend/main.py:36). -/
def MAX_DIMENSION : ℕ := 2048

/-- The size computation of `downscale_if_needed(im, max_dim)`
(backend/main.py:59-66).  Python evaluates `scale = max_dim / max(w, h)`
and `int(w * scale)`, `int(h * scale)` in binary64 floating point: the
division is one rounding (`fl53_div`), each multiplication by an exact
int is one rounding (`fl53_scaled`), and `int` truncates.  The LANCZOS
resampling of the pixel contents is outside this model; the function
returns the output size the source computes. -/
def downscale_if_needed_size (w h max_dim : ℕ) : ℕ × ℕ :=
  if max w h ≤ max_dim then (w, h)
  else
    let scale := fl53_div max_dim (max w h)
    let fw := fl53_scaled (w * scale.1) scale.2
    let fh := fl53_scaled (h * scale.1) scale.2
    (floorScaled fw.1 fw.2, floorScaled fh.1 fh.2)

/-- Python truthiness of an `Optional[str]`: present and non-empty. -/
def truthy : Option String → Bool
  | none => false
  | some s => !s.isEmpty

/-- The `base64_image` branch of `/upload` (backend/main.py:182-193);
`b64decode` is the external base64 decoder.  In the data-URL sub-branch
the source decodes outside any `try`, so a decode failure there escapes
to the generic handler (status 500, backend/main.py:221-223); in the
plain sub-branch a decode failure is caught and answered with 400. -/
def from_b64 (b64decode : String → Except String (List ℕ))
    (base64_image : Option String) : Except (ℕ × String) (List ℕ) :=
  match base64_image with
  | none => Except.error (400, "No file/image_url/base64_image provided")
  | some s =>
    if s.isEmpty then Except.error (400, "No file/image_url/base64_image provided")
    else if s.take 5 = "data:" then
      let parts := s.splitOn ","
      if parts.length < 2 then Except.error (400, "Invalid data URL")
      else
        match b64decode (String.intercalate "," parts.tail) with
        | Except.ok bs => Except.ok bs
        | Except.error e => Except.error (500, e)
    else
      match b64decode s with
      | Except.ok bs => Except.ok bs
      | Except.error _ => Except.error (400, "Provided base64_image is not valid base64")

/-- The input-selection logic of the `/upload` endpoint
(backend/main.py:167-195), producing either `img_bytes` or the HTTP
error the source raises.  External collaborators are oracles: `fetch`
is `fetch_image_from_url` (whose own failures the source converts to
status 400, backend/main.py:39-47), `scheme` is `urlparse(...).scheme`,
and `b64decode` is base64 decoding.  `file` holds the bytes of the
uploaded file when one is present. -/
def select_image_bytes (fetch : String → Except String (List ℕ))
    (b64decode : String → Except String (List ℕ)) (scheme : String → String)
    (file : Option (List ℕ)) (image_url base64_image : Option String) :
    Except (ℕ × String) (List ℕ) :=
  match file with
  | some d =>
    if d.length = 0 then Except.error (400, "Empty file")
    else if MAX_UPLOAD_BYTES < d.length then Except.error (413, "Uploaded file too large")
    else Except.ok d
  | none =>
    match image_url with
    | some u =>
      if !u.isEmpty then
        if scheme u = "http" ∨ scheme u = "https" then
          match fetch u with
          | Except.error e => Except.error (400, "Failed to fetch remote image: " ++ e)
          | Except.ok bs =>
            if MAX_UPLOAD_BYTES < bs.length then Except.error (413, "Remote image too large")
            else Except.ok bs
        else Except.error (400, "image_url must be http(s)")
      else from_b64 b64decode base64_image
    | none => from_b64 b64decode base64_image

/-! ## Theorems -/

/-- C3: for every 3-channel raster, background color sample, and threshold,
the unrefined mask built by the Mask Builder is binary: each pixel's mask
value is exactly 255 if the squared Euclidean RGB distance between that
pixel's color and the background color is strictly greater than the
threshold squared, and exactly 0 otherwise. -/
theorem mask_binary (rgb : RGBImage) (bg : RGB) (t : ℕ) :
    (∀ (y x : ℕ) (row : List RGB) (c : RGB), rgb[y]? = some row → row[x]? = some c →
      ((buildMask rgb bg t)[y]?.bind fun mrow : List ℕ => mrow[x]?) =
        some (if ((t * t : ℕ) : ℤ) < color_distance_sq c bg then 255 else 0)) ∧
    (∀ mrow ∈ buildMask rgb bg t, ∀ v ∈ mrow, v = 0 ∨ v = 255) := by
  constructor
  · intro y x row c hy hx
    simp [buildMask, List.getElem?_map, hy, hx]
  · intro mrow hm v hv
    simp only [buildMask, List.mem_map] at hm
    obtain ⟨row, -, rfl⟩ := hm
    simp only [List.mem_map] at hv
    obtain ⟨c, -, rfl⟩ := hv
    split
    · right; rfl
    · left; rfl

/-- Witness for C3 at a concrete 1-by-2 raster: the red pixel at distance
greater than 45 from the black background sample gets value 255. -/
theorem mask_binary_witness :
    ((buildMask [[RGB.mk 0 0 0, RGB.mk 255 0 0]] (RGB.mk 0 0 0) 45)[0]?.bind
        fun mrow : List ℕ => mrow[1]?) =
      some (if ((45 * 45 : ℕ) : ℤ) < color_distance_sq (RGB.mk 255 0 0) (RGB.mk 0 0 0)
        then 255 else 0) :=
  (mask_binary [[RGB.mk 0 0 0, RGB.mk 255 0 0]] (RGB.mk 0 0 0) 45).1 0 1
    [RGB.mk 0 0 0, RGB.mk 255 0 0] (RGB.mk 255 0 0) rfl rfl

/-- C7: for a fixed raster and a fixed background color sample, the
foreground fraction is antitone in the threshold: decreasing the threshold
never decreases the foreground fraction. -/
theorem fgFraction_antitone (rgb : RGBImage) (bg : RGB) (w h t1 t2 : ℕ)
    (hle : t1 ≤ t2) : fgFraction rgb bg w h t2 ≤ fgFraction rgb bg w h t1 := by
  have hcount : fgCount rgb bg t2 ≤ fgCount rgb bg t1 := by
    unfold fgCount
    refine List.sum_le_sum fun row _ => ?_
    refine List.countP_mono_left fun c _ hc => ?_
    simp only [decide_eq_true_eq] at hc ⊢
    refine lt_of_le_of_lt ?_ hc
    exact_mod_cast Nat.mul_le_mul hle hle
  unfold fgFraction
  rcases eq_or_lt_of_le (show (0 : ℚ) ≤ (w : ℚ) * (h : ℚ) by positivity) with h0 | h0
  · rw [← h0, div_zero, div_zero]
  · exact (div_le_div_iff_of_pos_right h0).mpr (by exact_mod_cast hcount)

/-- Witness for C7 at thresholds 20 ≤ 45 on a concrete 1-by-2 raster. -/
theorem fgFraction_antitone_witness :
    (20 : ℕ) ≤ 45 ∧
      fgFraction [[RGB.mk 0 0 0, RGB.mk 255 0 0]] (RGB.mk 10 10 10) 2 1 45 ≤
        fgFraction [[RGB.mk 0 0 0, RGB.mk 255 0 0]] (RGB.mk 10 10 10) 2 1 20 :=
  ⟨by decide,
    fgFraction_antitone [[RGB.mk 0 0 0, RGB.mk 255 0 0]] (RGB.mk 10 10 10) 2 1 20 45
      (by decide)⟩

/-- C8 fails on the code: for a 2215-by-100 raster, the source's
floating-point size computation `int(2215 * (2048 / 2215))` truncates to
2047, so the downscaled image's larger dimension is 2047, not exactly the
maximum dimension 2048 (the input is in the rescaling branch, as the third
conjunct shows). -/
theorem downscale_float_divergence :
    downscale_if_needed_size 2215 100 MAX_DIMENSION = (2047, 92) ∧
    (downscale_if_needed_size 2215 100 MAX_DIMENSION).1 ≠ 2048 ∧
    ¬ max 2215 100 ≤ MAX_DIMENSION := by
  refine ⟨by decide, by decide, by decide⟩

/-- Counterexample to C6 as stated: with smoothing radius 3, if the first
dilation succeeds and the second filter call fails, the mask handed on is
the once-dilated mask, not the unrefined mask — the dilate/erode step is
not "skipped entirely" on failure. -/
theorem refiner_skip_cex :
    ¬ (∀ (ok : ℕ → Bool) (r : ℕ) (m : Mask),
        (∃ i, i < 2 * r ∧ ok i = false) → morphStage ok r m = m) := by
  intro hclaim
  have h := hclaim (fun i => i == 0) 3 [[0, 0, 0], [0, 255, 0], [0, 0, 0]]
    ⟨1, by decide, by decide⟩
  exact absurd h (by decide)

/-- Helper for C6: the `try` block stops at the first failing filter call,
keeping the output of the calls already made. -/
theorem runFilters_stop (ok : ℕ → Bool) :
    ∀ (fs : List (Mask → Mask)) (k : ℕ) (m : Mask) (i : ℕ),
      i < fs.length → (∀ j, j < i → ok (k + j) = true) → ok (k + i) = false →
      runFilters ok k fs m = (fs.take i).foldl (fun a f => f a) m := by
  intro fs
  induction fs with
  | nil =>
    intro k m i hi
    simp at hi
  | cons f rest ih =>
    intro k m i hi hpre hfail
    cases i with
    | zero =>
      have hk : ok k = false := by simpa using hfail
      simp [runFilters, hk]
    | succ i' =>
      have hk : ok k = true := by simpa using hpre 0 (Nat.succ_pos i')
      rw [runFilters, if_pos hk]
      have hpre' : ∀ j, j < i' → ok (k + 1 + j) = true := fun j hj => by
        have := hpre (j + 1) (by omega)
        simpa [Nat.add_assoc, Nat.add_comm 1 j] using this
      have hfail' : ok (k + 1 + i') = false := by
        have : k + 1 + i' = k + (i' + 1) := by omega
        rw [this]; exact hfail
      rw [ih (k + 1) (f m) i' (by simpa using Nat.lt_of_succ_lt_succ hi) hpre' hfail']
      simp

/-- C6 amended: if the `i`-th filter call of the Refiner's dilate/erode
step is the first to fail, the remaining dilations/erosions are skipped
and the blur step receives the mask as filtered by the first `i`
successful calls — so when the filtering operation is unavailable from the
start (`i = 0`), the blur runs on the unrefined mask, but a failure partway
through keeps the partial filtering progress. -/
theorem refiner_failure_semantics (ok : ℕ → Bool) (r : ℕ) (m : Mask) (i : ℕ)
    (hi : i < 2 * r) (hpre : ∀ j, j < i → ok j = true) (hfail : ok i = false) :
    morphStage ok r m = ((filterChain r).take i).foldl (fun a f => f a) m := by
  have hlen : (filterChain r).length = 2 * r := by
    simp [filterChain]
    omega
  refine runFilters_stop ok (filterChain r) 0 m i (by omega) ?_ (by simpa using hfail)
  intro j hj
  simpa using hpre j hj

/-- Witness for C6 (amended) with the first filter call succeeding, the
second failing: the blur input is the once-dilated mask. -/
theorem refiner_failure_semantics_witness :
    ((1 : ℕ) < 2 * 3 ∧ (fun i : ℕ => i == 0) 1 = false) ∧
    morphStage (fun i : ℕ => i == 0) 3 [[0, 0, 0], [0, 255, 0], [0, 0, 0]] =
      ((filterChain 3).take 1).foldl (fun a f => f a) [[0, 0, 0], [0, 255, 0], [0, 0, 0]] :=
  ⟨⟨by decide, by decide⟩,
    refiner_failure_semantics (fun i : ℕ => i == 0) 3 [[0, 0, 0], [0, 255, 0], [0, 0, 0]] 1
      (by decide)
      (fun j hj => by simp [Nat.lt_one_iff.mp hj])
      (by decide)⟩

/-- C10: among the three `/upload` input sources, exactly one is used, with
fixed precedence: a present file wins (and the result then depends on no
other source and on neither the fetch nor the decode collaborator — they
are never invoked); otherwise a non-empty `image_url` wins (the decode
collaborator and `base64_image` are ignored); otherwise a non-empty
`base64_image` is decoded; and if all three are absent the request is
rejected with status 400. -/
theorem upload_precedence
    (fetch fetch2 b64decode b64decode2 : String → Except String (List ℕ))
    (scheme scheme2 : String → String)
    (file : Option (List ℕ)) (image_url base64_image : Option String) :
    (∀ d : List ℕ, file = some d →
      select_image_bytes fetch b64decode scheme file image_url base64_image =
        select_image_bytes fetch2 b64decode2 scheme2 (some d) none none) ∧
    (file = none → truthy image_url = true →
      select_image_bytes fetch b64decode scheme file image_url base64_image =
        select_image_bytes fetch b64decode2 scheme file image_url none) ∧
    (file = none → truthy image_url = false → truthy base64_image = true →
      select_image_bytes fetch b64decode scheme file image_url base64_image =
        from_b64 b64decode base64_image) ∧
    (file = none → truthy image_url = false → truthy base64_image = false →
      select_image_bytes fetch b64decode scheme file image_url base64_image =
        Except.error (400, "No file/image_url/base64_image provided")) := by
  refine ⟨?_, ?_, ?_, ?_⟩
  · intro d hd
    subst hd
    rfl
  · intro hf hurl
    subst hf
    cases image_url with
    | none => simp [truthy] at hurl
    | some u =>
      simp only [truthy] at hurl
      simp [select_image_bytes, hurl]
  · intro hf hurl hb
    subst hf
    cases image_url with
    | none => rfl
    | some u =>
      simp only [truthy, Bool.not_eq_true'] at hurl
      simp [select_image_bytes, hurl]
  · intro hf hurl hb
    subst hf
    have hres : from_b64 b64decode base64_image =
        Except.error (400, "No file/image_url/base64_image provided") := by
      cases base64_image with
      | none => rfl
      | some s =>
        have hb' : s.isEmpty = true := by
          simpa [truthy] using hb
        simp [from_b64, hb']
    cases image_url with
    | none => exact hres
    | some u =>
      simp only [truthy, Bool.not_eq_true'] at hurl
      simpa [select_image_bytes, hurl] using hres

/-- Witness for C10: with every source absent, the request is rejected with
status 400. -/
theorem upload_precedence_witness :
    (none : Option (List ℕ)) = none ∧ truthy none = false ∧
    select_image_bytes (fun _ => Except.error "unreachable")
        (fun _ => Except.ok [0]) (fun _ => "http") none none none =
      Except.error (400, "No file/image_url/base64_image provided") :=
  ⟨rfl, rfl,
    (upload_precedence (fun _ => Except.error "unreachable") (fun _ => Except.error "unreachable")
        (fun _ => Except.ok [0]) (fun _ => Except.ok [0]) (fun _ => "http") (fun _ => "http")
        none none none).2.2.2 rfl rfl rfl⟩

/-- Helper for C1: every attempt of the retry recursion uses the same
background color sample — the one estimated from the (unchanged) input
image. -/
theorem attempts_bg (im : RGBAImage) :
    ∀ (t : ℕ) (mf : ℚ) (p : ℕ × RGB), p ∈ attempts im t mf →
      p.2 = estimate_background_color (toRGB im) 10 := by
  intro t
  induction t using Nat.strong_induction_on with
  | _ t ih =>
    intro mf p hp
    rw [attempts.eq_def] at hp
    split at hp
    · rename_i hc
      rcases List.mem_cons.mp hp with h | h
      · rw [h]
      · exact ih (max 20 (t - 15)) (by omega) mf p h
    · rw [List.mem_singleton.mp hp]

/-- C1: when the foreground fraction is below the minimum and the threshold
exceeds 20, `pillow_bg_remove` rebuilds the mask at threshold
`max(20, threshold - 15)` with the same smoothing radius and the same
minimum foreground fraction, and the background color sample of every
retry attempt equals that of the first attempt (the estimate is a pure
function of the unchanged image, so recomputing it per call yields the
same sample). -/
theorem retry_lowers_threshold_same_bg (blur : Mask → Mask) (ok : ℕ → Bool)
    (im : RGBAImage) (t r : ℕ) (mf : ℚ)
    (h1 : fgFraction (toRGB im) (estimate_background_color (toRGB im) 10)
            (width im) (height im) t < mf)
    (h2 : 20 < t) :
    pillow_bg_remove blur ok im t r mf =
      pillow_bg_remove blur ok im (max 20 (t - 15)) r mf ∧
    ∀ p ∈ attempts im t mf, p.2 = estimate_background_color (toRGB im) 10 := by
  constructor
  · rw [pillow_bg_remove.eq_def]
    exact dif_pos ⟨h1, h2⟩
  · exact attempts_bg im t mf

/-- Witness for C1 on a concrete 1-by-1 black raster, whose foreground
fraction at threshold 45 is 0. -/
theorem retry_lowers_threshold_same_bg_witness :
    (fgFraction (toRGB [[RGBA.mk 0 0 0 255]])
        (estimate_background_color (toRGB [[RGBA.mk 0 0 0 255]]) 10)
        (width [[RGBA.mk 0 0 0 255]]) (height [[RGBA.mk 0 0 0 255]]) 45 < 1 / 1000 ∧
      20 < 45) ∧
    pillow_bg_remove id (fun _ => true) [[RGBA.mk 0 0 0 255]] 45 3 (1 / 1000) =
      pillow_bg_remove id (fun _ => true) [[RGBA.mk 0 0 0 255]] (max 20 (45 - 15)) 3 (1 / 1000) :=
  by
  have hbg : estimate_background_color (toRGB [[RGBA.mk 0 0 0 255]]) 10 = RGB.mk 0 0 0 := by
    decide
  have hfrac : fgFraction (toRGB [[RGBA.mk 0 0 0 255]])
      (estimate_background_color (toRGB [[RGBA.mk 0 0 0 255]]) 10)
      (width [[RGBA.mk 0 0 0 255]]) (height [[RGBA.mk 0 0 0 255]]) 45 < 1 / 1000 := by
    rw [hbg]
    norm_num [fgFraction, fgCount, color_distance_sq, width, height, toRGB]
  exact ⟨⟨hfrac, by decide⟩,
    (retry_lowers_threshold_same_bg id (fun _ => true) [[RGBA.mk 0 0 0 255]] 45 3 (1 / 1000)
      hfrac (by decide)).1⟩

/-- C2: starting from threshold 45, the retry terminates after at most 2
additional attempts; its threshold sequence is a prefix of 45, 30, 20
(each retry lowers the threshold by exactly 15 down to the floor of 20),
and at any threshold not exceeding 20 no retry occurs at all. -/
theorem retry_terminates (im : RGBAImage) (min_fg : ℚ) :
    (attempts im 45 min_fg).map Prod.fst ∈ [[45], [45, 30], [45, 30, 20]] ∧
    (attempts im 45 min_fg).length ≤ 3 ∧
    (∀ (t : ℕ) (mf : ℚ), t ≤ 20 → (attempts im t mf).map Prod.fst = [t]) := by
  have hstop : ∀ (t : ℕ) (mf : ℚ), t ≤ 20 → (attempts im t mf).map Prod.fst = [t] := by
    intro t mf ht
    rw [attempts.eq_def, dif_neg (fun hc => absurd hc.2 (by omega))]
    rfl
  have h20 : (attempts im 20 min_fg).map Prod.fst = [20] := hstop 20 min_fg (by omega)
  refine ⟨?_, ?_, hstop⟩ <;>
  · rw [attempts.eq_def]
    split
    · rw [show max 20 (45 - 15) = 30 from by omega, attempts.eq_def]
      split
      · rw [show max 20 (30 - 15) = 20 from by omega]
        have hlen : (attempts im 20 min_fg).length = 1 := by
          have := congrArg List.length h20
          simpa using this
        simp_all
      · simp
    · simp

/-- Witness for C2 on a concrete 1-by-1 raster, also instantiating the
no-retry-at-or-below-20 conjunct at threshold 20. -/
theorem retry_terminates_witness :
    (attempts [[RGBA.mk 0 0 0 255]] 45 (1 / 1000)).map Prod.fst ∈
      [[45], [45, 30], [45, 30, 20]] ∧
    (20 : ℕ) ≤ 20 ∧
    (attempts [[RGBA.mk 0 0 0 255]] 20 (1 / 2)).map Prod.fst = [20] :=
  ⟨(retry_terminates [[RGBA.mk 0 0 0 255]] (1 / 1000)).1, by decide,
    (retry_terminates [[RGBA.mk 0 0 0 255]] (1 / 1000)).2.2 20 (1 / 2) (by decide)⟩

/-- C5: `remove_background` is a total function (the embedding never
raises and produces a 4-channel raster by type), and whenever the learned
segmenter is unavailable, is not requested by the flag, or fails in any
way, the result is exactly the heuristic pipeline's output — the failure
is never surfaced to the caller. -/
theorem remove_background_total_fallback (blur : Mask → Mask) (ok : ℕ → Bool)
    (seg : RGBAImage → Except String RGBAImage) (rembg_available do_rembg : Bool)
    (im : RGBAImage) (hw : 1 ≤ width im) (hh : 1 ≤ height im)
    (hfail : (rembg_available && do_rembg) = false ∨ ∃ e, seg im = Except.error e) :
    remove_background blur ok seg rembg_available do_rembg im =
      pillow_bg_remove blur ok im 45 3 (1 / 1000) := by
  unfold remove_background
  rcases hfail with hf | ⟨e, he⟩
  · simp [hf]
  · by_cases hb : (rembg_available && do_rembg) = true
    · simp [hb, he]
    · simp [hb]

/-- Witness for C5 on a concrete 1-by-1 raster with an always-failing
learned segmenter that is available and requested. -/
theorem remove_background_total_fallback_witness :
    (1 ≤ width [[RGBA.mk 5 6 7 8]] ∧ 1 ≤ height [[RGBA.mk 5 6 7 8]] ∧
      (fun _ : RGBAImage => (Except.error "boom" : Except String RGBAImage))
          [[RGBA.mk 5 6 7 8]] = Except.error "boom") ∧
    remove_background id (fun _ => true) (fun _ => Except.error "boom") true true
        [[RGBA.mk 5 6 7 8]] =
      pillow_bg_remove id (fun _ => true) [[RGBA.mk 5 6 7 8]] 45 3 (1 / 1000) :=
  ⟨⟨by decide, by decide, rfl⟩,
    remove_background_total_fallback id (fun _ => true) (fun _ => Except.error "boom")
      true true [[RGBA.mk 5 6 7 8]] (by decide) (by decide) (Or.inr ⟨"boom", rfl⟩)⟩

/-- Helper for C9: whatever the retry recursion does, the heuristic
pipeline's output is the original input image with some mask put into the
alpha channel. -/
theorem pillow_is_putalpha (blur : Mask → Mask) (ok : ℕ → Bool) (im : RGBAImage) :
    ∀ (t : ℕ) (r : ℕ) (mf : ℚ), ∃ mask : Mask,
      pillow_bg_remove blur ok im t r mf = putalpha im mask := by
  intro t
  induction t using Nat.strong_induction_on with
  | _ t ih =>
    intro r mf
    rw [pillow_bg_remove.eq_def]
    split
    · rename_i hc
      exact ih (max 20 (t - 15)) (by omega) r mf
    · exact ⟨blur (morphStage ok r
        (buildMask (toRGB im) (estimate_background_color (toRGB im) 10) t)), rfl⟩

/-- Helper for C9: a pixel of `putalpha im mask` has the color channels of
the corresponding pixel of `im`. -/
theorem putalpha_pixel (im : RGBAImage) (mask : Mask) (y x : ℕ) (p : RGBA)
    (hp : ((putalpha im mask)[y]?.bind fun row : List RGBA => row[x]?) = some p) :
    ∃ q : RGBA, (im[y]?.bind fun row : List RGBA => row[x]?) = some q ∧
      p.r = q.r ∧ p.g = q.g ∧ p.b = q.b := by
  unfold putalpha at hp
  rw [Option.bind_eq_some] at hp
  obtain ⟨orow, hor, hx⟩ := hp
  rw [List.getElem?_zipWith_eq_some] at hor
  obtain ⟨row, mrow, him, hmk, rfl⟩ := hor
  rw [List.getElem?_zipWith_eq_some] at hx
  obtain ⟨q, a, hq, ha, rfl⟩ := hx
  exact ⟨q, by simp [him, hq], rfl, rfl, rfl⟩

/-- C9: every pixel of the heuristic pipeline's output has exactly the
red, green, and blue channels of the corresponding input pixel — the
pipeline only replaces the alpha channel. -/
theorem heuristic_preserves_colors (blur : Mask → Mask) (ok : ℕ → Bool)
    (im : RGBAImage) (t r : ℕ) (mf : ℚ) (y x : ℕ) (p : RGBA)
    (hp : ((pillow_bg_remove blur ok im t r mf)[y]?.bind
        fun row : List RGBA => row[x]?) = some p) :
    ∃ q : RGBA, (im[y]?.bind fun row : List RGBA => row[x]?) = some q ∧
      p.r = q.r ∧ p.g = q.g ∧ p.b = q.b := by
  obtain ⟨mask, hm⟩ := pillow_is_putalpha blur ok im t r mf
  rw [hm] at hp
  exact putalpha_pixel im mask y x p hp

/-- Witness for C9: on a 1-by-1 black raster the pipeline retries down to
threshold 20 and outputs the input pixel with alpha 0; its color channels
equal the input's. -/
theorem heuristic_preserves_colors_witness :
    ∃ q : RGBA,
      (([[RGBA.mk 0 0 0 255]] : RGBAImage)[0]?.bind fun row : List RGBA => row[0]?) = some q ∧
      (RGBA.mk 0 0 0 0).r = q.r ∧ (RGBA.mk 0 0 0 0).g = q.g ∧ (RGBA.mk 0 0 0 0).b = q.b :=
  heuristic_preserves_colors id (fun _ => true) [[RGBA.mk 0 0 0 255]] 45 3 (1 / 1000) 0 0
    (RGBA.mk 0 0 0 0) (by
      have hbg : estimate_background_color (toRGB [[RGBA.mk 0 0 0 255]]) 10 = RGB.mk 0 0 0 := by
        decide
      have hg45 : fgFraction (toRGB [[RGBA.mk 0 0 0 255]])
          (estimate_background_color (toRGB [[RGBA.mk 0 0 0 255]]) 10)
          (width [[RGBA.mk 0 0 0 255]]) (height [[RGBA.mk 0 0 0 255]]) 45 < 1 / 1000 := by
        rw [hbg]
        norm_num [fgFraction, fgCount, color_distance_sq, width, height, toRGB]
      have hg30 : fgFraction (toRGB [[RGBA.mk 0 0 0 255]])
          (estimate_background_color (toRGB [[RGBA.mk 0 0 0 255]]) 10)
          (width [[RGBA.mk 0 0 0 255]]) (height [[RGBA.mk 0 0 0 255]]) 30 < 1 / 1000 := by
        rw [hbg]
        norm_num [fgFraction, fgCount, color_distance_sq, width, height, toRGB]
      rw [pillow_bg_remove.eq_def, dif_pos ⟨hg45, by norm_num⟩,
        show max 20 (45 - 15) = 30 from by norm_num,
        pillow_bg_remove.eq_def, dif_pos ⟨hg30, by norm_num⟩,
        show max 20 (30 - 15) = 20 from by norm_num,
        pillow_bg_remove.eq_def, dif_neg (fun hc => absurd hc.2 (by norm_num)), hbg]
      decide)

/-- Helper for C4: height of a crop. -/
theorem crop_height {α : Type} (im : List (List α)) (l u r b : ℕ) :
    height (crop im l u r b) = min (b - u) (height im - u) := by
  simp [crop, height]

/-- Helper for C4: row length of a crop of a rectangular raster. -/
theorem crop_row_len {α : Type} (im : List (List α)) (hrect : Rect im) (l u r b : ℕ) :
    ∀ row ∈ crop im l u r b, row.length = min (r - l) (width im - l) := by
  intro row hrow
  simp only [crop, List.mem_map] at hrow
  obtain ⟨row2, hrow2, rfl⟩ := hrow
  have hm : row2 ∈ im := List.mem_of_mem_drop (List.mem_of_mem_take hrow2)
  simp [List.length_take, List.length_drop, hrect row2 hm]

/-- Helper for C4: every pixel of a crop is a pixel of the source raster. -/
theorem crop_pixel_mem {α : Type} (im : List (List α)) (l u r b : ℕ) :
    ∀ row ∈ crop im l u r b, ∀ p ∈ row, ∃ row2 ∈ im, p ∈ row2 := by
  intro row hrow p hp
  simp only [crop, List.mem_map] at hrow
  obtain ⟨row2, hrow2, rfl⟩ := hrow
  exact ⟨row2, List.mem_of_mem_drop (List.mem_of_mem_take hrow2),
    List.mem_of_mem_drop (List.mem_of_mem_take hp)⟩

/-- Helper for C4: division with a nonzero divisor never overshoots an
integer bound on the quotient. -/
theorem nat_div_le_of_le_mul (a b L : ℕ) (hb : 0 < b) (h : a ≤ b * L) : a / b ≤ L := by
  have hdm := Nat.div_add_mod a b
  refine Nat.le_of_mul_le_mul_left ?_ hb
  omega

/-- Helper for C4: rounding to nearest (ties to even) never overshoots an
integer bound: if `a ≤ L * b` then `round(a / b) ≤ L`. -/
theorem roundNearEven_le (a b L : ℕ) (hb : 0 < b) (h : a ≤ L * b) :
    roundNearEven a b ≤ L := by
  rw [Nat.mul_comm] at h
  have hdm := Nat.div_add_mod a b
  have hq : a / b ≤ L := nat_div_le_of_le_mul a b L hb h
  have hkey : a / b = L → a % b = 0 := by
    intro he
    rw [he] at hdm
    omega
  unfold roundNearEven
  split
  · rcases Nat.eq_or_lt_of_le hq with he | hlt
    · have := hkey he
      omega
    · omega
  · split
    · exact hq
    · split
      · exact hq
      · rcases Nat.eq_or_lt_of_le hq with he | hlt
        · have := hkey he
          omega
        · omega

/-- Helper for C4: the fuel-limited binary logarithm never exceeds the
true logarithm (regardless of fuel). -/
theorem log2Fuel_le : ∀ (f k n : ℕ), n < 2 ^ (k + 1) → log2Fuel f n ≤ k := by
  intro f
  induction f with
  | zero =>
    intro k n _
    simp [log2Fuel]
  | succ f ih =>
    intro k n hn
    unfold log2Fuel
    split
    · rename_i h2
      cases k with
      | zero =>
        have : n < 2 := by simpa using hn
        omega
      | succ k2 =>
        have hh : n / 2 < 2 ^ (k2 + 1) := by
          rw [Nat.div_lt_iff_lt_mul (by omega : 0 < 2)]
          calc n < 2 ^ (k2 + 2) := hn
            _ = 2 ^ (k2 + 1) * 2 := by ring
        have := ih k2 (n / 2) hh
        omega
    · omega

/-- Helper for C4: converting a scaled rational bound into an integer
mantissa bound. -/
theorem nat_le_of_val_le (m u L : ℕ) (h : (m : ℚ) * 2 ^ (-(u : ℤ)) ≤ L) :
    m ≤ L * 2 ^ u := by
  have h2 : (m : ℚ) ≤ (L : ℚ) * 2 ^ (u : ℕ) := by
    calc (m : ℚ) = (m : ℚ) * 2 ^ (-(u : ℤ)) * 2 ^ ((u : ℕ) : ℤ) := by
          rw [mul_assoc, ← zpow_add₀ (by norm_num : (2 : ℚ) ≠ 0)]
          simp
      _ ≤ (L : ℚ) * 2 ^ ((u : ℕ) : ℤ) := by
          refine mul_le_mul_of_nonneg_right h (by positivity)
      _ = (L : ℚ) * 2 ^ (u : ℕ) := by rw [zpow_natCast]
  exact_mod_cast h2

/-- Helper for C4: a float value is nonnegative. -/
theorem F64val_nonneg (f : F64) : 0 ≤ F64val f := by
  unfold F64val
  positivity

/-- Helper for C4: rounding an exact quotient to binary64 never overshoots
an integer bound below `2 ^ 53`. -/
theorem fl53_div_le (n d L : ℕ) (hd : 0 < d) (hL : L < 2 ^ 53) (h : n ≤ L * d) :
    F64val (fl53_div n d) ≤ L := by
  unfold fl53_div
  split
  · unfold F64val
    simp
  · rename_i hn0
    have hE52 : fl53exp n d ≤ 52 := by
      unfold fl53exp
      split
      · rename_i hdn
        have hnd : n / d ≤ L := nat_div_le_of_le_mul n d L hd (by rw [Nat.mul_comm d L]; exact h)
        have : n / d < 2 ^ (52 + 1) := lt_of_le_of_lt hnd hL
        have := log2Fuel_le 128 52 (n / d) this
        unfold natLog2
        exact_mod_cast this
      · omega
    rw [if_pos hE52]
    set E := fl53exp n d with hE
    set k := (52 - E).toNat with hk
    have hk' : (E - 52 : ℤ) = -(k : ℤ) := by omega
    have hm : roundNearEven (n * 2 ^ k) d ≤ L * 2 ^ k := by
      refine roundNearEven_le _ _ _ hd ?_
      calc n * 2 ^ k ≤ L * d * 2 ^ k := Nat.mul_le_mul_right _ h
        _ = L * 2 ^ k * d := by ring
    unfold F64val
    rw [hk']
    calc (roundNearEven (n * 2 ^ k) d : ℚ) * 2 ^ (-(k : ℤ))
        ≤ ((L * 2 ^ k : ℕ) : ℚ) * 2 ^ (-(k : ℤ)) := by
          refine mul_le_mul_of_nonneg_right ?_ (by positivity)
          exact_mod_cast hm
      _ = L := by
          push_cast
          rw [mul_assoc, ← zpow_natCast (2 : ℚ) k, ← zpow_add₀ (by norm_num : (2 : ℚ) ≠ 0)]
          simp

/-- Helper for C4: re-rounding an exact scaled value to binary64 never
overshoots an integer bound below `2 ^ 53`. -/
theorem fl53_scaled_le (m : ℕ) (e : ℤ) (L : ℕ) (hL : L < 2 ^ 53)
    (h : (m : ℚ) * 2 ^ e ≤ L) : F64val (fl53_scaled m e) ≤ L := by
  unfold fl53_scaled
  split
  · unfold F64val
    exact h
  · rename_i hm
    push_neg at hm
    have he : e < 0 := by
      by_contra hpos
      push_neg at hpos
      have h1 : (1 : ℚ) ≤ 2 ^ e := by
        calc (1 : ℚ) = 2 ^ (0 : ℤ) := by norm_num
          _ ≤ 2 ^ e := by
            refine zpow_le_zpow_right₀ (by norm_num) hpos
      have h2 : (m : ℚ) ≤ (m : ℚ) * 2 ^ e := le_mul_of_one_le_right (by positivity) h1
      have h3 : (m : ℚ) ≤ L := le_trans h2 h
      have h4 : m ≤ L := by exact_mod_cast h3
      omega
    set u := (-e).toNat with hu
    have hue : e = -(u : ℤ) := by omega
    have hmu : m ≤ L * 2 ^ u := nat_le_of_val_le m u L (by rw [← hue]; exact h)
    have hs : natLog2 m - 52 ≤ u := by
      have hlt : m < 2 ^ (52 + u + 1) := by
        calc m ≤ L * 2 ^ u := hmu
          _ < 2 ^ 53 * 2 ^ u := by
              exact (Nat.mul_lt_mul_right (Nat.pos_pow_of_pos u (by omega))).mpr hL
          _ = 2 ^ (52 + u + 1) := by rw [← pow_add]; ring_nf
      have := log2Fuel_le 128 (52 + u) m hlt
      unfold natLog2
      omega
    set s := natLog2 m - 52 with hs'
    have hround : roundNearEven m (2 ^ s) ≤ L * 2 ^ (u - s) := by
      refine roundNearEven_le _ _ _ (Nat.pos_pow_of_pos s (by omega)) ?_
      calc m ≤ L * 2 ^ u := hmu
        _ = L * 2 ^ (u - s) * 2 ^ s := by
            rw [mul_assoc, ← pow_add]
            congr 2
            omega
    unfold F64val
    calc (roundNearEven m (2 ^ s) : ℚ) * 2 ^ (e + (s : ℕ))
        ≤ ((L * 2 ^ (u - s) : ℕ) : ℚ) * 2 ^ (e + (s : ℕ)) := by
          refine mul_le_mul_of_nonneg_right ?_ (by positivity)
          exact_mod_cast hround
      _ = L := by
          push_cast
          rw [mul_assoc, ← zpow_natCast (2 : ℚ) (u - s), ← zpow_add₀ (by norm_num : (2 : ℚ) ≠ 0)]
          rw [show (((u - s : ℕ) : ℤ) + (e + (s : ℕ)) : ℤ) = 0 from by omega]
          simp

/-- Helper for C4: the aligned mantissa sum inside `fladd` is the exact
sum of the two float values. -/
theorem fladd_exact (a b : F64) :
    ((a.1 * 2 ^ (a.2 - min a.2 b.2).toNat + b.1 * 2 ^ (b.2 - min a.2 b.2).toNat : ℕ) : ℚ) *
      2 ^ (min a.2 b.2) = F64val a + F64val b := by
  push_cast
  rw [add_mul]
  congr 1
  · unfold F64val
    rw [mul_assoc, ← zpow_natCast (2 : ℚ) (a.2 - min a.2 b.2).toNat,
      ← zpow_add₀ (by norm_num : (2 : ℚ) ≠ 0),
      show (((a.2 - min a.2 b.2).toNat : ℕ) : ℤ) + min a.2 b.2 = a.2 from by omega]
  · unfold F64val
    rw [mul_assoc, ← zpow_natCast (2 : ℚ) (b.2 - min a.2 b.2).toNat,
      ← zpow_add₀ (by norm_num : (2 : ℚ) ≠ 0),
      show (((b.2 - min a.2 b.2).toNat : ℕ) : ℤ) + min a.2 b.2 = b.2 from by omega]

/-- Helper for C4: float addition of nonnegative floats never overshoots
the sum of integer bounds below `2 ^ 53`. -/
theorem fladd_le (a b : F64) (A B : ℕ) (hA : F64val a ≤ A) (hB : F64val b ≤ B)
    (hAB : A + B < 2 ^ 53) : F64val (fladd a b) ≤ A + B := by
  unfold fladd
  refine le_trans (fl53_scaled_le _ _ (A + B) hAB ?_) (by push_cast; ring_nf; rfl)
  rw [fladd_exact a b]
  push_cast
  exact add_le_add hA hB

/-- Helper for C4: float division by a positive int never overshoots the
quotient's integer bound below `2 ^ 53`. -/
theorem fldivNat_le (a : F64) (k L : ℕ) (hk : 0 < k) (hL : L < 2 ^ 53)
    (h : F64val a ≤ L * k) : F64val (fldivNat a k) ≤ L := by
  unfold fldivNat
  split
  · rename_i he
    refine fl53_div_le _ _ _ hk hL ?_
    have h2 : ((a.1 * 2 ^ a.2.toNat : ℕ) : ℚ) ≤ ((L * k : ℕ) : ℚ) := by
      push_cast
      calc (a.1 : ℚ) * 2 ^ (a.2.toNat : ℕ) = F64val a := by
            unfold F64val
            rw [← zpow_natCast (2 : ℚ) a.2.toNat,
              show ((a.2.toNat : ℕ) : ℤ) = a.2 from by omega]
        _ ≤ (L : ℚ) * k := by exact_mod_cast h
    exact_mod_cast h2
  · rename_i he
    push_neg at he
    refine fl53_div_le _ _ _ (by positivity) hL ?_
    have h2 : (a.1 : ℚ) * 2 ^ (-((-a.2).toNat : ℤ)) ≤ (L * k : ℕ) := by
      push_cast
      calc (a.1 : ℚ) * 2 ^ (-((-a.2).toNat : ℤ)) = F64val a := by
            unfold F64val
            rw [show (-((-a.2).toNat : ℤ)) = a.2 from by omega]
        _ ≤ (L : ℚ) * k := by exact_mod_cast h
    have := nat_le_of_val_le a.1 (-a.2).toNat (L * k) h2
    calc a.1 ≤ L * k * 2 ^ (-a.2).toNat := this
      _ = L * (k * 2 ^ (-a.2).toNat) := by ring

/-- Helper for C4: the truncation of a nonnegative float never overshoots
an integer bound on its value. -/
theorem floorScaled_le (m : ℕ) (e : ℤ) (L : ℕ) (h : (m : ℚ) * 2 ^ e ≤ L) :
    floorScaled m e ≤ L := by
  unfold floorScaled
  split
  · rename_i he
    have h2 : ((m * 2 ^ e.toNat : ℕ) : ℚ) ≤ L := by
      push_cast
      calc (m : ℚ) * 2 ^ (e.toNat : ℕ) = (m : ℚ) * 2 ^ e := by
            rw [← zpow_natCast (2 : ℚ) e.toNat,
              show ((e.toNat : ℕ) : ℤ) = e from by omega]
        _ ≤ L := h
    exact_mod_cast h2
  · rename_i he
    push_neg at he
    have h2 : (m : ℚ) * 2 ^ (-((-e).toNat : ℤ)) ≤ L := by
      calc (m : ℚ) * 2 ^ (-((-e).toNat : ℤ)) = (m : ℚ) * 2 ^ e := by
            rw [show (-((-e).toNat : ℤ)) = e from by omega]
        _ ≤ L := h
    have := nat_le_of_val_le m (-e).toNat L h2
    calc m / 2 ^ (-e).toNat ≤ L * 2 ^ (-e).toNat / 2 ^ (-e).toNat :=
          Nat.div_le_div_right this
      _ = L := Nat.mul_div_cancel L (by positivity)

/-- Helper for C4: a channel sum over a raster with nonnegative channel
values is nonnegative. -/
theorem sumChan_nonneg (c : RGBImage) (f : RGB → ℤ)
    (hlo : ∀ row ∈ c, ∀ p ∈ row, 0 ≤ f p) : 0 ≤ sumChan f c := by
  unfold sumChan
  refine List.sum_nonneg fun x hx => ?_
  simp only [List.mem_map] at hx
  obtain ⟨row, hrow, rfl⟩ := hx
  refine List.sum_nonneg fun y hy => ?_
  simp only [List.mem_map] at hy
  obtain ⟨p, hp, rfl⟩ := hy
  exact hlo row hrow p hp

/-- Helper for C4: a channel sum over a raster with 8-bit channel values
is at most 255 times the pixel count. -/
theorem sumChan_le (c : RGBImage) (f : RGB → ℤ)
    (hhi : ∀ row ∈ c, ∀ p ∈ row, f p ≤ 255) :
    sumChan f c ≤ 255 * (statCount c : ℤ) := by
  unfold sumChan statCount
  calc (c.map fun row => (row.map f).sum).sum
      ≤ (c.map fun row => (255 : ℤ) * row.length).sum := by
        refine List.sum_le_sum fun row hrow => ?_
        calc (row.map f).sum ≤ (row.map f).length • (255 : ℤ) := by
              refine List.sum_le_card_nsmul _ _ fun x hx => ?_
              simp only [List.mem_map] at hx
              obtain ⟨p, hp, rfl⟩ := hx
              exact hhi row hrow p hp
          _ = (255 : ℤ) * row.length := by
              simp [nsmul_eq_mul, mul_comm]
    _ = 255 * (c.map fun row => (row.length : ℤ)).sum :=
        List.sum_map_mul_left c (fun row => (row.length : ℤ)) 255
    _ = 255 * ((c.map List.length).sum : ℤ) := by
        congr 1
        rw [Nat.cast_list_sum, List.map_map]
        rfl

/-- Helper for C4: the corner loop accumulates, channel by channel, the
float sums of the per-corner float means of the valid corners, and their
count. -/
theorem foldl_bgStep_float (l : List RGBImage) : ∀ acc : F64 × F64 × F64 × ℕ,
    l.foldl bgStep acc =
      ((cornerMeansF l).foldl (fun a m => fladd a m.1) acc.1,
       (cornerMeansF l).foldl (fun a m => fladd a m.2.1) acc.2.1,
       (cornerMeansF l).foldl (fun a m => fladd a m.2.2) acc.2.2.1,
       acc.2.2.2 + (cornerMeansF l).length) := by
  induction l with
  | nil =>
    intro acc
    simp [cornerMeansF]
  | cons c l ih =>
    intro acc
    rw [List.foldl_cons, ih (bgStep acc c)]
    unfold bgStep cornerMeansF
    by_cases h : 0 < statCount c
    · simp [if_pos h, List.filterMap_cons, Prod.ext_iff, add_assoc, add_comm, add_left_comm]
    · simp only [if_neg h, List.filterMap_cons]

/-- Helper for C4: a left fold of float additions over floats bounded by
255 never overshoots 255 per addend. -/
theorem foldl_fladd_le (l : List F64) :
    ∀ (acc : F64) (j : ℕ), (∀ x ∈ l, F64val x ≤ 255) →
      F64val acc ≤ ((255 * j : ℕ) : ℚ) → 255 * (j + l.length) < 2 ^ 53 →
      F64val (l.foldl fladd acc) ≤ ((255 * (j + l.length) : ℕ) : ℚ) := by
  induction l with
  | nil =>
    intro acc j hall hacc hcap
    simpa using hacc
  | cons x l ih =>
    intro acc j hall hacc hcap
    rw [List.foldl_cons]
    simp only [List.length_cons] at hcap ⊢
    have h1 : F64val (fladd acc x) ≤ ((255 * (j + 1) : ℕ) : ℚ) := by
      have h2 := fladd_le acc x (255 * j) 255 hacc (hall x (List.mem_cons_self x l))
        (by omega)
      calc F64val (fladd acc x) ≤ ((255 * j : ℕ) : ℚ) + ((255 : ℕ) : ℚ) := h2
        _ = ((255 * (j + 1) : ℕ) : ℚ) := by push_cast; ring
    have h3 := ih (fladd acc x) (j + 1) (fun y hy => hall y (List.mem_cons_of_mem x hy))
      h1 (by omega)
    calc F64val (List.foldl fladd (fladd acc x) l)
        ≤ ((255 * (j + 1 + l.length) : ℕ) : ℚ) := h3
      _ = ((255 * (j + (l.length + 1)) : ℕ) : ℚ) := by push_cast; ring

/-- C4 amended: the Background Color Estimator extracts four corner
sub-rectangles clamped to min(S,W) by min(S,H); it equals the spec-side
float-level description — the binary64 per-corner mean of each corner
holding at least one pixel, accumulated with binary64 additions, divided
by the valid-corner count with one binary64 division, truncated — it
returns a 3-tuple of integers in [0, 255] for 8-bit input, and it
returns white (255,255,255) when zero corners are valid.  (The truncated
binary64 average can be one less than the exact arithmetic average, so
the original exact-average reading fails; see the counterexample.) -/
theorem estimate_bg_float_spec (im : RGBImage) (S : ℕ) (hrect : Rect im)
    (hvalid : ∀ row ∈ im, ∀ p ∈ row,
      0 ≤ p.r ∧ p.r ≤ 255 ∧ 0 ≤ p.g ∧ p.g ≤ 255 ∧ 0 ≤ p.b ∧ p.b ≤ 255) :
    (∀ c ∈ cornersOf im S,
      height c = min S (height im) ∧ ∀ row ∈ c, row.length = min S (width im)) ∧
    estimate_background_color im S = specEstimateF im S ∧
    (0 ≤ (estimate_background_color im S).r ∧ (estimate_background_color im S).r ≤ 255 ∧
     0 ≤ (estimate_background_color im S).g ∧ (estimate_background_color im S).g ≤ 255 ∧
     0 ≤ (estimate_background_color im S).b ∧ (estimate_background_color im S).b ≤ 255) ∧
    (cornerMeansF (cornersOf im S) = [] →
      estimate_background_color im S = RGB.mk 255 255 255) := by
  have heq : estimate_background_color im S = specEstimateF im S := by
    simp only [estimate_background_color, specEstimateF]
    rw [foldl_bgStep_float]
    simp only [zero_add]
    by_cases hms : cornerMeansF (cornersOf im S) = []
    · simp [hms]
    · rw [if_neg (fun hlen => hms (List.length_eq_zero.mp hlen)),
        if_neg (by simpa [List.isEmpty_iff] using hms)]
  have hmem : ∀ m ∈ cornerMeansF (cornersOf im S),
      F64val m.1 ≤ 255 ∧ F64val m.2.1 ≤ 255 ∧ F64val m.2.2 ≤ 255 := by
    intro m hm
    simp only [cornerMeansF, List.mem_filterMap] at hm
    obtain ⟨c, hc, hmc⟩ := hm
    by_cases hcount : 0 < statCount c
    · rw [if_pos hcount] at hmc
      have hpx : ∀ row ∈ c, ∀ p ∈ row,
          0 ≤ p.r ∧ p.r ≤ 255 ∧ 0 ≤ p.g ∧ p.g ≤ 255 ∧ 0 ≤ p.b ∧ p.b ≤ 255 := by
        simp only [cornersOf, List.mem_cons, List.not_mem_nil, or_false] at hc
        rcases hc with rfl | rfl | rfl | rfl <;>
        · intro row hrow p hp
          obtain ⟨row2, h2, hp2⟩ := crop_pixel_mem im _ _ _ _ row hrow p hp
          exact hvalid row2 h2 p hp2
      have hb : ∀ f : RGB → ℤ, (∀ row ∈ c, ∀ p ∈ row, f p ≤ 255) →
          F64val (fl53_div (sumChan f c).toNat (statCount c)) ≤ 255 := by
        intro f hhi
        refine fl53_div_le _ _ 255 hcount (by norm_num) ?_
        have h1 : sumChan f c ≤ 255 * (statCount c : ℤ) := sumChan_le c f hhi
        have h2 : (sumChan f c).toNat ≤ (255 * (statCount c : ℤ)).toNat :=
          Int.toNat_le_toNat h1
        calc (sumChan f c).toNat ≤ (255 * (statCount c : ℤ)).toNat := h2
          _ = 255 * statCount c := by
              rw [show (255 * (statCount c : ℤ) : ℤ) = ((255 * statCount c : ℕ) : ℤ) from by
                push_cast; ring]
              exact Int.toNat_natCast _
      cases Option.some_inj.mp hmc
      exact ⟨hb RGB.r (fun row hrow p hp => (hpx row hrow p hp).2.1),
        hb RGB.g (fun row hrow p hp => (hpx row hrow p hp).2.2.2.1),
        hb RGB.b (fun row hrow p hp => (hpx row hrow p hp).2.2.2.2.2)⟩
    · rw [if_neg hcount] at hmc
      exact absurd hmc (by simp)
  refine ⟨?_, heq, ?_, ?_⟩
  · intro c hc
    simp only [cornersOf, List.mem_cons, List.not_mem_nil, or_false] at hc
    rcases hc with rfl | rfl | rfl | rfl <;>
      refine ⟨?_, fun row hrow => ?_⟩ <;>
      first
        | (rw [crop_height]; omega)
        | (rw [crop_row_len im hrect _ _ _ _ row hrow]; omega)
  · rw [heq]
    simp only [specEstimateF]
    by_cases hms : cornerMeansF (cornersOf im S) = []
    · simp [hms]
    · rw [if_neg (by simpa [List.isEmpty_iff] using hms)]
      have hlen4 : (cornerMeansF (cornersOf im S)).length ≤ 4 := by
        calc (cornerMeansF (cornersOf im S)).length ≤ (cornersOf im S).length :=
              List.length_filterMap_le _ _
          _ = 4 := by simp [cornersOf]
      have hlen0 : 0 < (cornerMeansF (cornersOf im S)).length :=
        List.length_pos.mpr hms
      have hch : ∀ g : F64 × F64 × F64 → F64,
          (∀ m ∈ cornerMeansF (cornersOf im S), F64val (g m) ≤ 255) →
          0 ≤ floorF64 (fldivNat
              ((cornerMeansF (cornersOf im S)).foldl (fun a m => fladd a (g m)) (0, 0))
              (cornerMeansF (cornersOf im S)).length) ∧
          floorF64 (fldivNat
              ((cornerMeansF (cornersOf im S)).foldl (fun a m => fladd a (g m)) (0, 0))
              (cornerMeansF (cornersOf im S)).length) ≤ 255 := by
        intro g hg
        have hfoldmap :
            (cornerMeansF (cornersOf im S)).foldl (fun a m => fladd a (g m)) (0, 0) =
              ((cornerMeansF (cornersOf im S)).map g).foldl fladd (0, 0) :=
          (List.foldl_map g fladd (cornerMeansF (cornersOf im S)) (0, 0)).symm
        have hfold : F64val
            (((cornerMeansF (cornersOf im S)).map g).foldl fladd (0, 0)) ≤
              ((255 * (0 + ((cornerMeansF (cornersOf im S)).map g).length) : ℕ) : ℚ) := by
          refine foldl_fladd_le _ (0, 0) 0 ?_ (by simp [F64val]) ?_
          · intro x hx
            obtain ⟨m, hm, rfl⟩ := List.mem_map.mp hx
            exact hg m hm
          · rw [List.length_map]
            omega
        rw [List.length_map] at hfold
        have hdiv : F64val (fldivNat
            ((cornerMeansF (cornersOf im S)).foldl (fun a m => fladd a (g m)) (0, 0))
            (cornerMeansF (cornersOf im S)).length) ≤ 255 := by
          rw [hfoldmap]
          refine fldivNat_le _ _ 255 hlen0 (by norm_num) ?_
          calc F64val (((cornerMeansF (cornersOf im S)).map g).foldl fladd (0, 0))
              ≤ ((255 * (0 + (cornerMeansF (cornersOf im S)).length) : ℕ) : ℚ) := hfold
            _ = ((255 : ℕ) : ℚ) * ((cornerMeansF (cornersOf im S)).length : ℚ) := by
                push_cast; ring
            _ = _ := by push_cast; ring
        constructor
        · unfold floorF64
          positivity
        · unfold floorF64
          have := floorScaled_le _ _ 255 hdiv
          exact_mod_cast this
      exact ⟨(hch (fun m => m.1) (fun m hm => (hmem m hm).1)).1,
        (hch (fun m => m.1) (fun m hm => (hmem m hm).1)).2,
        (hch (fun m => m.2.1) (fun m hm => (hmem m hm).2.1)).1,
        (hch (fun m => m.2.1) (fun m hm => (hmem m hm).2.1)).2,
        (hch (fun m => m.2.2) (fun m hm => (hmem m hm).2.2)).1,
        (hch (fun m => m.2.2) (fun m hm => (hmem m hm).2.2)).2⟩
  · intro hms
    rw [heq]
    simp [specEstimateF, hms]

/-- Witness for C4 (amended) on a concrete rectangular 1-by-2 raster with
valid 8-bit channels. -/
theorem estimate_bg_float_spec_witness :
    (Rect ([[RGB.mk 10 20 30, RGB.mk 20 30 40]] : RGBImage) ∧
      ∀ row ∈ ([[RGB.mk 10 20 30, RGB.mk 20 30 40]] : RGBImage), ∀ p ∈ row,
        0 ≤ p.r ∧ p.r ≤ 255 ∧ 0 ≤ p.g ∧ p.g ≤ 255 ∧ 0 ≤ p.b ∧ p.b ≤ 255) ∧
    estimate_background_color [[RGB.mk 10 20 30, RGB.mk 20 30 40]] 10 =
      specEstimateF [[RGB.mk 10 20 30, RGB.mk 20 30 40]] 10 :=
  ⟨⟨by unfold Rect; decide, by decide⟩,
    (estimate_bg_float_spec [[RGB.mk 10 20 30, RGB.mk 20 30 40]] 10
      (by unfold Rect; decide) (by decide)).2.1⟩

/-- Counterexample to C4 as stated: on the 6-by-6 raster `cexEstimator`
with sample size 3, the source's binary64 mean accumulation truncates to
104 on every channel, while the exact per-corner arithmetic means average
to exactly 105 — so the estimator does not return the (integer) exact
average of the corner means. -/
theorem estimator_exact_average_cex :
    estimate_background_color cexEstimator 3 = RGB.mk 104 104 104 ∧
    specEstimate cexEstimator 3 = RGB.mk 105 105 105 ∧
    estimate_background_color cexEstimator 3 ≠ specEstimate cexEstimator 3 := by
  have h1 : estimate_background_color cexEstimator 3 = RGB.mk 104 104 104 := by decide
  have hc : cornerMeansOf (cornersOf cexEstimator 3) =
      [(142, 142, 142), ((374 : ℚ) / 9, (374 : ℚ) / 9, (374 : ℚ) / 9),
        ((1603 : ℚ) / 9, (1603 : ℚ) / 9, (1603 : ℚ) / 9),
        ((175 : ℚ) / 3, (175 : ℚ) / 3, (175 : ℚ) / 3)] := by
    norm_num [cornerMeansOf, cornersOf, crop, statCount, sumChan, width, height,
      cexEstimator, List.filterMap_cons, Function.comp]
  have h2 : specEstimate cexEstimator 3 = RGB.mk 105 105 105 := by
    simp only [specEstimate]
    rw [hc]
    norm_num [py_int]
  exact ⟨h1, h2, by rw [h1, h2]; decide⟩

end Tryon
